import Mathlib

/-!
Verification of the TOGA job-splitting stage.

This file shallowly embeds the decision logic of
src/split_exon_realign_jobs.py (ortholog selection, chain-count
truncation, projected-region anomaly filtering, the CESAR memory
model, memory-bucket classification and proportional job allocation)
and of src/modules/make_pr_pseudogenes_anno.py (chain-header query
coordinate extraction with strand flip), and proves properties of the
embedded definitions.

Conventions: Python dicts keyed by (chain, gene) string pairs are
modelled as insertion-ordered association lists (assignment to an
existing key overwrites in place, a fresh key is appended, exactly as
CPython dicts behave); Python floats are modelled as rationals; a
Python exception is modelled as Except.error.
-/

/-- A Python dict with (chain, gene) string-pair keys and string values,
modelled as an insertion-ordered association list. -/
abbrev PyDict := List ((String × String) × String)

/-- Python dict assignment: overwrite in place if the key exists,
append otherwise. -/
def dictSet (m : PyDict) (k : String × String) (v : String) : PyDict :=
  if m.any (fun p => p.1 = k) then
    m.map (fun p => if p.1 = k then (k, v) else p)
  else m ++ [(k, v)]

/-- Python dict lookup (`d.get(k)`): value of the entry holding the key. -/
def dictGet (m : PyDict) (k : String × String) : Option String :=
  (m.find? (fun p => p.1 = k)).map Prod.snd

/-- A dict of gene to selected chain list (the genes_chains dict). -/
abbrev GeneDict := List (String × List String)

/-- Python dict assignment for the gene to chain-list dict. -/
def geneDictSet (m : GeneDict) (k : String) (v : List String) : GeneDict :=
  if m.any (fun p => p.1 = k) then
    m.map (fun p => if p.1 = k then (k, v) else p)
  else m ++ [(k, v)]

/-- Embeds die from split_exon_realign_jobs.py: writes msg to stderr and
terminates the process via sys.exit(rc).  In the source, rc defaults to 0;
the result records the message and the process exit status. -/
def die (msg : String) (rc : ℕ) : String × ℕ := (msg, rc)

/-- One parsed data row of the orthologs table: gene id and the raw
comma-split contents of the ORTH, PARA and TRANS columns. -/
structure Row where
  gene : String
  orth : List String
  para : List String
  tr : List String
deriving Repr, DecidableEq

/-- The per-category chain lists of a row: the source drops the "0"
filler entries; chains.get(field) for any other field gives nothing. -/
def chainsOf (row : Row) (field : String) : List String :=
  if field = "ORTH" then row.orth.filter (fun x => x ≠ "0")
  else if field = "PARA" then row.para.filter (fun x => x ≠ "0")
  else if field = "TRANS" then row.tr.filter (fun x => x ≠ "0")
  else []

/-- all_chains = chains["ORTH"] + chains["PARA"] + chains["TRANS"]. -/
def allChains (row : Row) : List String :=
  chainsOf row "ORTH" ++ chainsOf row "PARA" ++ chainsOf row "TRANS"

/-- State accumulated by read_orthologs over the table rows. -/
structure OrthoState where
  genesChains : GeneDict
  chainGeneField : PyDict
  skipped : List (String × String × String)
deriving Repr, DecidableEq

/-- Initial read_orthologs state: empty dicts and skip list. -/
def initState : OrthoState := ⟨[], [], []⟩

/-- Tags every chain of cs with field value v for the given gene:
the inner loop chain_gene_field[(chain, gene)] = field. -/
def tagChains (d : PyDict) (gene : String) (cs : List String) (v : String) : PyDict :=
  cs.foldl (fun m c => dictSet m (c, gene) v) d

/-- The priority-field loop of read_orthologs: for each field in the
caller's order, if the row's list for that field is non-empty, extend
the selection with it and tag each (chain, gene) pair with the field. -/
def selectLoop (row : Row) : List String → List String → PyDict → List String × PyDict
  | [], sel, d => (sel, d)
  | f :: rest, sel, d =>
    let fc := chainsOf row f
    if fc = [] then selectLoop row rest sel d
    else selectLoop row rest (sel ++ fc) (tagChains d row.gene fc f)

/-- Processing of one table line by read_orthologs: header skip, the
no-chains and one2one skips, the priority-field selection, and the
paralog fallback when nothing was selected. -/
def processRow (fields : List String) (onlyO2O : Bool) (st : OrthoState) (row : Row) :
    OrthoState :=
  if row.gene = "GENE" then st
  else if allChains row = [] then
    ⟨st.genesChains, st.chainGeneField,
     st.skipped ++ [(row.gene, "0", "No chains intersecting the gene")]⟩
  else if onlyO2O &&
      ((chainsOf row "ORTH").length == 0 || (chainsOf row "ORTH").length > 1) then
    ⟨st.genesChains, st.chainGeneField,
     st.skipped ++ [(row.gene, "0", "Only one2one requested, this gene didn\x27t pass")]⟩
  else
    let sd := selectLoop row fields [] st.chainGeneField
    if sd.1 = [] then
      ⟨geneDictSet st.genesChains row.gene (allChains row),
       tagChains sd.2 row.gene (allChains row) "PARALOG", st.skipped⟩
    else
      ⟨geneDictSet st.genesChains row.gene sd.1, sd.2, st.skipped⟩

/-- The fatal-error message raised when no gene selected any chain. -/
def noPairsMsg : String :=
  "Error! No gene:chains pairs selected! Probably --fields parameter is wrong!"

/-- read_orthologs over the parsed table rows.  fields is the already
upper-cased, comma-split priority list.  When the resulting genes_chains
dict is empty the source calls die with its default return code. -/
def read_orthologs (fields : List String) (onlyO2O : Bool) (rows : List Row) :
    Except (String × ℕ) OrthoState :=
  let st := rows.foldl (processRow fields onlyO2O) initState
  if st.genesChains = [] then Except.error (die noPairsMsg 0) else Except.ok st

/-- The paralogs log written by main: one "gene.chain" line for every
dict entry whose value is "PARALOG", in dict order. -/
def paralogLog (d : PyDict) : List String :=
  (d.filter (fun p => p.2 = "PARALOG")).map (fun p => p.1.2 ++ "." ++ p.1.1)

/-- Value of a decimal digit character, none for any other character. -/
def decDigit? (c : Char) : Option ℕ :=
  if 48 ≤ c.toNat ∧ c.toNat ≤ 57 then some (c.toNat - 48) else none

/-- Decimal value of a non-empty digit string, none on any non-digit. -/
def parseNatDigits (cs : List Char) : Option ℕ :=
  if cs = [] then none
  else
    cs.foldl
      (fun acc c =>
        match acc, decDigit? c with
        | some n, some d => some (10 * n + d)
        | _, _ => none)
      (some 0)

/-- Python int(s) for a decimal string with optional leading minus:
some value on a well-formed literal, none (ValueError) otherwise. -/
def parseInt (s : String) : Option ℤ :=
  match s.data with
  | '-' :: rest => (parseNatDigits rest).map (fun n => -(n : ℤ))
  | cs => (parseNatDigits cs).map (fun n => (n : ℤ))

/-- sorted(chains, key=lambda x: int(x)): the numeric sort key of a
chain-id string. -/
def chainSortKey (s : String) : ℤ := (parseInt s).getD 0

/-- The truncation loop opening precompute_regions: per gene, the
chains actually iterated into chain_to_genes (the sorted list cut at
the limit) and the accumulated skip entries.  The skip entry for an
over-limit gene joins chains_[limit:] where chains_ has already been
reassigned to the truncated list. -/
def truncate_chains (batch : GeneDict) (limit : ℕ) :
    GeneDict × List (String × String × String) :=
  batch.foldl
    (fun acc gc =>
      if gc.2 = [] then
        (acc.1, acc.2 ++ [(gc.1, String.intercalate "," gc.2, "no orthologous chains")])
      else
        let chains2 :=
          (List.insertionSort (fun a b => chainSortKey a ≤ chainSortKey b) gc.2).take limit
        let skip2 :=
          if gc.2.length > limit then
            acc.2 ++ [(gc.1, String.intercalate "," (chains2.drop limit),
              "number of chains (" ++ toString limit ++ " chains) limit exceeded")]
          else acc.2
        (acc.1 ++ [(gc.1, chains2)], skip2))
    ([], [])

/-- LONG_LOCI_FIELDS of the source. -/
def LONG_LOCI_FIELDS : List String := ["GGLOB", "TRANS"]

/-- field in LONG_LOCI_FIELDS for an optional dict lookup result:
None is never in the set. -/
def longLociField : Option String → Bool
  | some f => LONG_LOCI_FIELDS.contains f
  | none => false

/-- One parsed output line of the external chain_coords_converter:
the input-interval index and the query- and target-side coordinates. -/
structure ConvLine where
  num : ℕ
  qStart : ℤ
  qEnd : ℤ
  tStart : ℤ
  tEnd : ℤ
deriving Repr, DecidableEq

/-- Outcome of processing one converter line: either a skip entry or a
recorded projected query length for (gene, chain). -/
inductive LineOutcome
  | skip (entry : String × String × String)
  | record (gene chain : String) (queLen : ℤ)
deriving Repr, DecidableEq

/-- The per-line body of the projection loop in precompute_regions.
Python evaluates len_delta / tar_len before indexing genes[num], so a
zero target length raises ZeroDivisionError first; an out-of-range
interval index raises IndexError.  Otherwise the line yields either the
"too long query locus" skip or the recorded query length. -/
def process_conv_line (genes : List String) (chainId : String) (cgf : PyDict)
    (l : ConvLine) : Except String LineOutcome :=
  let queLen := l.qEnd - l.qStart
  let tarLen := l.tEnd - l.tStart
  if tarLen = 0 then Except.error "ZeroDivisionError: division by zero"
  else
    let lenDelta : ℕ := (tarLen - queLen).natAbs
    let deltaGeneTimes : ℚ := (lenDelta : ℚ) / (tarLen : ℚ)
    match genes[l.num]? with
    | none => Except.error "IndexError: list index out of range"
    | some gene =>
      let field := dictGet cgf (chainId, gene)
      if (deltaGeneTimes > 50 ∨ lenDelta > 500000) ∧ longLociField field = true then
        Except.ok (LineOutcome.skip (gene, chainId, "too long query locus"))
      else
        Except.ok (LineOutcome.record gene chainId queLen)

/-- The per-gene memory-model accumulation loop of main: total number
of internal CESAR states and total reference length over the exon
block sizes. -/
def memStats (blockSizes : List ℕ) : ℕ × ℕ :=
  blockSizes.foldl
    (fun acc b => (acc.1 + (6 + 6 * (b / 3) + 1 + 2 + 2 + 22 + 6), acc.2 + b)) (0, 0)

/-- The memory estimate in bytes computed by main, including the
100000-byte extra constant. -/
def memoryBytes (blockSizes : List ℕ) (qlengthMax : ℕ) : ℕ :=
  (memStats blockSizes).1 * 4 * 8 + (memStats blockSizes).1 * qlengthMax * 4 +
    (memStats blockSizes).1 * 304 + (2 * qlengthMax + (memStats blockSizes).2) * 8 +
    (qlengthMax + (memStats blockSizes).2) * 2 * 1 + 100000

/-- gig = math.ceil(memory / 1000000000) + 0.25, as a rational. -/
def cesar_gig (blockSizes : List ℕ) (qlengthMax : ℕ) : ℚ :=
  (⌈(memoryBytes blockSizes qlengthMax : ℚ) / 1000000000⌉ : ℚ) + 1 / 4

/-- The bucket-filling recursion of fill_buckets: one bucket per memory
limit, holding the job names whose memory lies in (prev, memlim]. -/
def fillGo (allJobs : List (String × ℚ)) : ℚ → List ℤ → List (ℤ × List String)
  | _, [] => []
  | prev, m :: rest =>
    (m, (allJobs.filter (fun j => prev < j.2 ∧ j.2 ≤ (m : ℚ))).map Prod.fst) ::
      fillGo allJobs (m : ℚ) rest

/-- fill_buckets of the source: the sentinel key 0 sends every job name
to bucket 0 and keeps the other keys as given (unfiltered early
return); otherwise the sorted keys are filled over half-open ranges and
empty buckets are removed. -/
def fill_buckets (bucketKeys : List ℤ) (allJobs : List (String × ℚ)) :
    List (ℤ × List String) :=
  if 0 ∈ bucketKeys then
    bucketKeys.map (fun k => (k, if k = 0 then allJobs.map Prod.fst else []))
  else
    (fillGo allJobs 0 (List.insertionSort (fun a b => a ≤ b) bucketKeys)).filter
      (fun b => b.2 ≠ [])

/-- buckets_prop of main: the runtime-share estimate of each filled
bucket, or the single sentinel share 1.0. -/
def buckets_prop (filled : List (ℤ × List String)) : List (ℤ × ℚ) :=
  if 0 ∈ filled.map Prod.fst then [(0, 1)]
  else
    filled.map (fun b =>
      (b.1, ((b.1 : ℚ) * b.2.length) /
        ((filled.map (fun c => (c.1 : ℚ) * c.2.length)).sum)))

/-- bucket_jobs_num of main: per bucket, math.ceil(jobs_num * prop). -/
def bucket_jobs_num (jobsNum : ℕ) (filled : List (ℤ × List String)) : List (ℤ × ℤ) :=
  (buckets_prop filled).map (fun p => (p.1, ⌈(jobsNum : ℚ) * p.2⌉))

/-- get_corr_q_regions of make_pr_pseudogenes_anno.py, per chain: read
query chromosome, size, strand, start and end from header token
positions 7 to 11, flip start and end against the size on strand "-",
and derive the projection strand from the gene strand.  A missing token
or unparsable integer (Python IndexError or ValueError) yields none. -/
def get_corr_q_region (geneStrand : String) (chainHeader : List String) :
    Option (String × String × ℤ × ℤ) := do
  let qChrom ← chainHeader[7]?
  let qSize ← parseInt (← chainHeader[8]?)
  let qStrand ← chainHeader[9]?
  let qStart0 ← parseInt (← chainHeader[10]?)
  let qEnd0 ← parseInt (← chainHeader[11]?)
  let qStart := if qStrand = "-" then qSize - qEnd0 else qStart0
  let qEnd := if qStrand = "-" then qSize - qStart0 else qEnd0
  let projStrand := if qStrand = geneStrand then "+" else "-"
  return (qChrom, projStrand, qStart, qEnd)

lemma dictGet_cons_self (p : (String × String) × String) (m : PyDict)
    (k : String × String) (h : p.1 = k) : dictGet (p :: m) k = some p.2 := by
  simp [dictGet, List.find?_cons_of_pos, h]

lemma dictGet_cons_ne (p : (String × String) × String) (m : PyDict)
    (k : String × String) (h : p.1 ≠ k) : dictGet (p :: m) k = dictGet m k := by
  simp [dictGet, List.find?_cons_of_neg, h]

lemma dictGet_setMap (m : PyDict) (k : String × String) (v : String) (k2 : String × String) :
    dictGet (m.map (fun p => if p.1 = k then (k, v) else p)) k2 =
      if k2 = k then (if m.any (fun p => p.1 = k) then some v else none)
      else dictGet m k2 := by
  induction m with
  | nil => by_cases hk : k2 = k <;> simp [dictGet, hk]
  | cons p m ih =>
    by_cases hp : p.1 = k
    · by_cases hk : k2 = k
      · subst hk
        simp only [List.map_cons, if_pos hp, List.any_cons]
        rw [dictGet_cons_self _ _ _ rfl]
        simp [hp]
      · simp only [List.map_cons, if_pos hp, List.any_cons]
        rw [dictGet_cons_ne _ _ _ (by simpa using Ne.symm hk),
          dictGet_cons_ne _ _ _ (hp ▸ Ne.symm hk), ih]
        simp [hk]
    · by_cases hpk2 : p.1 = k2
      · simp only [List.map_cons, if_neg hp, List.any_cons]
        rw [dictGet_cons_self _ _ _ hpk2, dictGet_cons_self _ _ _ hpk2]
        have hk : ¬ k2 = k := fun h => hp (hpk2.trans h)
        simp [hk]
      · simp only [List.map_cons, if_neg hp, List.any_cons]
        rw [dictGet_cons_ne _ _ _ hpk2, dictGet_cons_ne _ _ _ hpk2, ih]
        simp only [hp, decide_False, Bool.false_or]

lemma dictGet_dictSet (m : PyDict) (k : String × String) (v : String) (k2 : String × String) :
    dictGet (dictSet m k v) k2 = if k2 = k then some v else dictGet m k2 := by
  unfold dictSet
  by_cases hany : m.any (fun p => p.1 = k)
  · rw [if_pos hany, dictGet_setMap]
    by_cases hk : k2 = k <;> simp [hk, hany]
  · rw [if_neg hany]
    induction m with
    | nil =>
      by_cases hk : k2 = k
      · subst hk; simp [dictGet_cons_self]
      · simp [dictGet, Ne.symm hk, hk]
    | cons p m ih =>
      have hp : ¬ p.1 = k := by
        intro h; exact hany (by simp [List.any_cons, h])
      have hany2 : ¬ m.any (fun p => p.1 = k) = true := by
        intro h; exact hany (by simp [List.any_cons, h])
      by_cases hpk2 : p.1 = k2
      · rw [List.cons_append, dictGet_cons_self _ _ _ hpk2, dictGet_cons_self _ _ _ hpk2]
        have hk : ¬ k2 = k := fun h => hp (hpk2.trans h)
        simp [hk]
      · rw [List.cons_append, dictGet_cons_ne _ _ _ hpk2, dictGet_cons_ne _ _ _ hpk2]
        exact ih hany2

lemma dictGet_tagChains (d : PyDict) (g : String) (cs : List String) (v : String)
    (k2 : String × String) :
    dictGet (tagChains d g cs v) k2 =
      if ∃ c ∈ cs, (c, g) = k2 then some v else dictGet d k2 := by
  induction cs generalizing d with
  | nil => simp [tagChains]
  | cons c cs ih =>
    have hstep : tagChains d g (c :: cs) v = tagChains (dictSet d (c, g) v) g cs v := rfl
    rw [hstep, ih, dictGet_dictSet]
    by_cases hc : (c, g) = k2
    · have hex : ∃ x ∈ c :: cs, (x, g) = k2 := ⟨c, List.mem_cons_self c cs, hc⟩
      rw [if_pos hex]
      by_cases hcs : ∃ x ∈ cs, (x, g) = k2
      · rw [if_pos hcs]
      · rw [if_neg hcs, if_pos hc.symm]
    · by_cases hcs : ∃ x ∈ cs, (x, g) = k2
      · have hex : ∃ x ∈ c :: cs, (x, g) = k2 := by
          obtain ⟨x, hx, hxk⟩ := hcs
          exact ⟨x, List.mem_cons_of_mem c hx, hxk⟩
        rw [if_pos hcs, if_pos hex]
      · have hex : ¬ ∃ x ∈ c :: cs, (x, g) = k2 := by
          rintro ⟨x, hx, hxk⟩
          rcases List.mem_cons.mp hx with h1 | h2
          · exact hc (h1 ▸ hxk)
          · exact hcs ⟨x, h2, hxk⟩
        rw [if_neg hcs, if_neg hex, if_neg (fun h => hc h.symm)]

lemma getLast?_cons_of_ne_nil (a : String) (l : List String) (h : l ≠ []) :
    (a :: l).getLast? = l.getLast? := by
  cases l with
  | nil => exact absurd rfl h
  | cons b t => exact List.getLast?_cons_cons

lemma dictSet_keys_nodup (m : PyDict) (k : String × String) (v : String)
    (h : (m.map Prod.fst).Nodup) : ((dictSet m k v).map Prod.fst).Nodup := by
  unfold dictSet
  by_cases hany : m.any (fun p => p.1 = k)
  · rw [if_pos hany]
    have : (m.map (fun p => if p.1 = k then (k, v) else p)).map Prod.fst = m.map Prod.fst := by
      rw [List.map_map]
      apply List.map_congr_left
      intro p _
      by_cases hp : p.1 = k <;> simp [hp]
    rw [this]; exact h
  · rw [if_neg hany]
    have hnk : k ∉ m.map Prod.fst := by
      intro hmem
      obtain ⟨p, hp, hpk⟩ := List.mem_map.mp hmem
      exact hany (List.any_eq_true.mpr ⟨p, hp, by simp [hpk]⟩)
    rw [List.map_append]
    simp only [List.map_cons, List.map_nil]
    rw [List.nodup_append]
    refine ⟨h, List.nodup_singleton k, ?_⟩
    intro a ha hb
    rw [List.mem_singleton] at hb
    subst hb
    exact hnk ha

lemma tagChains_keys_nodup (g : String) (cs : List String) (v : String) :
    ∀ d : PyDict, (d.map Prod.fst).Nodup → ((tagChains d g cs v).map Prod.fst).Nodup := by
  induction cs with
  | nil => intro d h; exact h
  | cons c cs ih =>
    intro d h
    exact ih (dictSet d (c, g) v) (dictSet_keys_nodup d (c, g) v h)

lemma tagChains_fresh (g : String) (v : String) :
    ∀ (cs : List String) (d : PyDict), cs.Nodup →
      (∀ c ∈ cs, (d.any (fun p => p.1 = (c, g))) = false) →
      tagChains d g cs v = d ++ cs.map (fun c => ((c, g), v)) := by
  intro cs
  induction cs with
  | nil => intro d _ _; simp [tagChains]
  | cons c cs ih =>
    intro d hnd hfresh
    have hstep : tagChains d g (c :: cs) v = tagChains (dictSet d (c, g) v) g cs v := rfl
    have hset : dictSet d (c, g) v = d ++ [((c, g), v)] := by
      unfold dictSet
      rw [if_neg (by simp [hfresh c (List.mem_cons_self c cs)])]
    rw [hstep, hset, ih (d ++ [((c, g), v)]) (List.Nodup.of_cons hnd)]
    · simp
    · intro x hx
      have h1 : (d.any (fun p => p.1 = (x, g))) = false :=
        hfresh x (List.mem_cons_of_mem c hx)
      have hxc : c ≠ x := by
        intro hcx
        subst hcx
        exact (List.nodup_cons.mp hnd).1 hx
      have h2 : (List.any [((c, g), v)] fun p => decide (p.1 = (x, g))) = false := by
        simp [Prod.ext_iff, hxc]
      rw [List.any_append, h1, h2]
      rfl

lemma chainsOf_mem_pair (row : Row) (f : String) (chain : String) :
    (∃ c ∈ chainsOf row f, (c, row.gene) = (chain, row.gene)) ↔ chain ∈ chainsOf row f := by
  constructor
  · rintro ⟨c, hc, hck⟩
    have hcc : c = chain := (Prod.ext_iff.mp hck).1
    exact hcc ▸ hc
  · intro h
    exact ⟨chain, h, rfl⟩

lemma selectLoop_tag (row : Row) (chain : String) :
    ∀ (fields : List String) (sel : List String) (d : PyDict),
      dictGet (selectLoop row fields sel d).2 (chain, row.gene) =
        match (fields.filter (fun f => chain ∈ chainsOf row f)).getLast? with
        | some f => some f
        | none => dictGet d (chain, row.gene) := by
  intro fields
  induction fields with
  | nil => intro sel d; rfl
  | cons f rest ih =>
    intro sel d
    by_cases hfc : chainsOf row f = []
    · have h1 : selectLoop row (f :: rest) sel d = selectLoop row rest sel d := by
        simp [selectLoop, hfc]
      have h2 : (f :: rest).filter (fun f => chain ∈ chainsOf row f) =
          rest.filter (fun f => chain ∈ chainsOf row f) := by
        rw [List.filter_cons]
        simp [hfc]
      rw [h1, h2]
      exact ih sel d
    · have h1 : selectLoop row (f :: rest) sel d =
          selectLoop row rest (sel ++ chainsOf row f)
            (tagChains d row.gene (chainsOf row f) f) := by
        simp [selectLoop, hfc]
      rw [h1, ih]
      by_cases hmem : chain ∈ chainsOf row f
      · have h2 : (f :: rest).filter (fun f => chain ∈ chainsOf row f) =
            f :: rest.filter (fun f => chain ∈ chainsOf row f) := by
          rw [List.filter_cons]; simp [hmem]
        rw [h2]
        cases hlast : (rest.filter (fun f => chain ∈ chainsOf row f)).getLast? with
        | none =>
          have hnil := List.getLast?_eq_none_iff.mp hlast
          rw [hnil]
          simp only [List.getLast?_singleton]
          rw [dictGet_tagChains]
          rw [if_pos ((chainsOf_mem_pair row f chain).mpr hmem)]
        | some f2 =>
          have hne : rest.filter (fun f => chain ∈ chainsOf row f) ≠ [] := by
            intro h; rw [h] at hlast; exact Option.noConfusion hlast
          rw [getLast?_cons_of_ne_nil f _ hne, hlast]
      · have h2 : (f :: rest).filter (fun f => chain ∈ chainsOf row f) =
            rest.filter (fun f => chain ∈ chainsOf row f) := by
          rw [List.filter_cons]; simp [hmem]
        rw [h2]
        cases hlast : (rest.filter (fun f => chain ∈ chainsOf row f)).getLast? with
        | none =>
          rw [dictGet_tagChains]
          rw [if_neg (fun h => hmem ((chainsOf_mem_pair row f chain).mp h))]
        | some f2 => rfl

lemma selectLoop_sel_count (row : Row) (chain : String) :
    ∀ (fields sel : List String) (d : PyDict),
      (selectLoop row fields sel d).1.count chain =
        sel.count chain + (fields.map (fun f => (chainsOf row f).count chain)).sum := by
  intro fields
  induction fields with
  | nil => intro sel d; simp [selectLoop]
  | cons f rest ih =>
    intro sel d
    by_cases hfc : chainsOf row f = []
    · have h1 : selectLoop row (f :: rest) sel d = selectLoop row rest sel d := by
        simp [selectLoop, hfc]
      rw [h1, ih]
      simp [hfc]
    · have h1 : selectLoop row (f :: rest) sel d =
          selectLoop row rest (sel ++ chainsOf row f)
            (tagChains d row.gene (chainsOf row f) f) := by
        simp [selectLoop, hfc]
      rw [h1, ih]
      simp [List.count_append, Nat.add_assoc]

lemma selectLoop_keys_nodup (row : Row) :
    ∀ (fields sel : List String) (d : PyDict), (d.map Prod.fst).Nodup →
      ((selectLoop row fields sel d).2.map Prod.fst).Nodup := by
  intro fields
  induction fields with
  | nil => intro sel d h; exact h
  | cons f rest ih =>
    intro sel d h
    by_cases hfc : chainsOf row f = []
    · have h1 : selectLoop row (f :: rest) sel d = selectLoop row rest sel d := by
        simp [selectLoop, hfc]
      rw [h1]; exact ih sel d h
    · have h1 : selectLoop row (f :: rest) sel d =
          selectLoop row rest (sel ++ chainsOf row f)
            (tagChains d row.gene (chainsOf row f) f) := by
        simp [selectLoop, hfc]
      rw [h1]
      exact ih _ _ (tagChains_keys_nodup row.gene (chainsOf row f) f d h)

lemma selectLoop_all_empty (row : Row) :
    ∀ (fields sel : List String) (d : PyDict), (∀ f ∈ fields, chainsOf row f = []) →
      selectLoop row fields sel d = (sel, d) := by
  intro fields
  induction fields with
  | nil => intro sel d _; rfl
  | cons f rest ih =>
    intro sel d h
    have hfc : chainsOf row f = [] := h f (List.mem_cons_self f rest)
    have h1 : selectLoop row (f :: rest) sel d = selectLoop row rest sel d := by
      simp [selectLoop, hfc]
    rw [h1]
    exact ih sel d (fun f2 hf2 => h f2 (List.mem_cons_of_mem f hf2))

lemma paralogLog_tag_map (g : String) (cs : List String) :
    paralogLog (cs.map (fun c => ((c, g), "PARALOG"))) =
      cs.map (fun c => g ++ "." ++ c) := by
  induction cs with
  | nil => rfl
  | cons c cs ih => simp [paralogLog, List.filter_cons] at ih ⊢; exact ih

/-- C1: chain-count truncation at the spec example.  With ceiling 2 and
candidate chains 5, 1 and 9 the kept list is 1, 5 (ascending numeric id,
first two), as the claim states; but the recorded skip entry carries the
empty chain-id string instead of the discarded tail 9, because the source
joins chains_[limit:] after chains_ has already been cut to the limit. -/
theorem truncate_chains_limit_example :
    truncate_chains [("geneA", ["5", "1", "9"])] 2 =
      ([("geneA", ["1", "5"])],
       [("geneA", "", "number of chains (2 chains) limit exceeded")]) := by decide

/-- C2 counterexample: on a table whose only gene has no candidate chains at
all, read_orthologs aborts, but the recorded process exit status is 0 (die
uses its default return code), which is not a non-zero-equivalent signal. -/
theorem read_orthologs_exit_code_zero :
    read_orthologs ["ORTH", "TRANS"] false [⟨"g1", ["0"], ["0"], ["0"]⟩] =
      Except.error (noPairsMsg, 0) := by rfl

/-- C2 (amended): if zero genes across the whole table produce a non-empty
chain selection, read_orthologs aborts before any further processing, but
the exit status signalled to the caller is 0, the default of die, and hence
indistinguishable from success by exit code. -/
theorem read_orthologs_zero_selection_aborts (fields : List String) (o2o : Bool)
    (rows : List Row)
    (h : (rows.foldl (processRow fields o2o) initState).genesChains = []) :
    read_orthologs fields o2o rows = Except.error (noPairsMsg, 0) := by
  simp only [read_orthologs, h, die]
  rfl

/-- Witness for the amended C2 theorem: a table whose only gene fails the
one-to-one restriction yields the same exit record. -/
theorem read_orthologs_zero_selection_aborts_w :
    read_orthologs ["ORTH", "TRANS"] true [⟨"g2", ["1", "2"], ["0"], ["0"]⟩] =
      Except.error (noPairsMsg, 0) :=
  read_orthologs_zero_selection_aborts ["ORTH", "TRANS"] true
    [⟨"g2", ["1", "2"], ["0"], ["0"]⟩] (by decide)

/-- C4 counterexample: with priority fields ORTH then TRANS and chain 1
listed under both categories for gene g, the tag recorded for ("1", "g") is
TRANS — the last matching priority field, not the first — and the chain
enters the selection twice. -/
theorem duplicate_chain_last_tag_wins :
    (processRow ["ORTH", "TRANS"] false initState ⟨"g", ["1"], ["0"], ["1"]⟩).chainGeneField =
        [(("1", "g"), "TRANS")] ∧
      (processRow ["ORTH", "TRANS"] false initState ⟨"g", ["1"], ["0"], ["1"]⟩).genesChains =
        [("g", ["1", "1"])] ∧
      ("TRANS" : String) ≠ "ORTH" := by
  exact ⟨by decide, by decide, by decide⟩

/-- C4 (amended): the priority-selection loop keeps the tag dict keys
duplicate-free, so each selected (chain, gene) pair carries at most one
category tag; the tag recorded is that of the LAST priority field in the
caller's order whose category list holds the chain (falling back to the
pre-existing dict entry when none does); and the chain is appended to the
selection once per matching priority category. -/
theorem select_tags_spec (row : Row) (chain : String) (fields sel : List String)
    (d : PyDict) (hd : (d.map Prod.fst).Nodup) :
    ((selectLoop row fields sel d).2.map Prod.fst).Nodup ∧
      dictGet (selectLoop row fields sel d).2 (chain, row.gene) =
        (match (fields.filter (fun f => chain ∈ chainsOf row f)).getLast? with
         | some f => some f
         | none => dictGet d (chain, row.gene)) ∧
      (selectLoop row fields sel d).1.count chain =
        sel.count chain + (fields.map (fun f => (chainsOf row f).count chain)).sum :=
  ⟨selectLoop_keys_nodup row fields sel d hd, selectLoop_tag row chain fields sel d,
   selectLoop_sel_count row chain fields sel d⟩

/-- Witness for the amended C4 theorem at the counterexample input: the
looked-up tag evaluates to TRANS, the last matching field. -/
theorem select_tags_spec_w :
    dictGet (selectLoop ⟨"g", ["1"], ["0"], ["1"]⟩ ["ORTH", "TRANS"] [] []).2 ("1", "g") =
      some "TRANS" := by
  have h := select_tags_spec ⟨"g", ["1"], ["0"], ["1"]⟩ "1" ["ORTH", "TRANS"] [] []
    (by decide)
  rw [h.2.1]
  decide

/-- C5: for a table row whose non-empty categories all lie outside the
requested priority list, the selection falls back to the union of all the
row's chains, every selected (chain, gene) pair is tagged PARALOG, the
paralog log over the resulting tag dict is exactly one gene.chain line per
selected chain, and no skip entry is produced. -/
theorem paralog_fallback_spec (fields : List String) (row : Row)
    (hg : row.gene ≠ "GENE")
    (hf : ∀ f ∈ fields, chainsOf row f = [])
    (ha : allChains row ≠ [])
    (hnd : (allChains row).Nodup) :
    (processRow fields false initState row).genesChains = [(row.gene, allChains row)] ∧
      (∀ c ∈ allChains row,
        dictGet (processRow fields false initState row).chainGeneField (c, row.gene) =
          some "PARALOG") ∧
      paralogLog (processRow fields false initState row).chainGeneField =
        (allChains row).map (fun c => row.gene ++ "." ++ c) ∧
      (processRow fields false initState row).skipped = [] := by
  have hsd : selectLoop row fields [] ([] : PyDict) = ([], []) :=
    selectLoop_all_empty row fields [] [] hf
  have hpr : processRow fields false initState row =
      ⟨[(row.gene, allChains row)], tagChains [] row.gene (allChains row) "PARALOG", []⟩ := by
    simp only [processRow, initState, if_neg hg, if_neg ha, Bool.false_and, Bool.and_eq_true,
      if_neg (by simp : ¬ (false = true ∧ True)), hsd]
    simp [geneDictSet, hsd]
  rw [hpr]
  refine ⟨rfl, ?_, ?_, rfl⟩
  · intro c hc
    rw [dictGet_tagChains]
    exact if_pos ⟨c, hc, rfl⟩
  · rw [tagChains_fresh row.gene "PARALOG" (allChains row) [] hnd (by intro c _; rfl)]
    simp only [List.nil_append]
    exact paralogLog_tag_map row.gene (allChains row)

/-- Witness for the C5 theorem: a gene with only paralogous chains 7 and 8
under priority ORTH, TRANS yields the paralog log lines g.7 and g.8. -/
theorem paralog_fallback_spec_w :
    paralogLog (processRow ["ORTH", "TRANS"] false initState
        ⟨"g", ["0"], ["7", "8"], ["0"]⟩).chainGeneField = ["g.7", "g.8"] := by
  have h := paralog_fallback_spec ["ORTH", "TRANS"] ⟨"g", ["0"], ["7", "8"], ["0"]⟩
    (by decide) (by decide) (by decide) (by decide)
  rw [h.2.2.1]
  decide

lemma memStats_go (f : ℕ → ℕ) (blocks : List ℕ) :
    ∀ a b : ℕ,
      blocks.foldl (fun acc x => (acc.1 + f x, acc.2 + x)) (a, b) =
        (a + (blocks.map f).sum, b + blocks.sum) := by
  induction blocks with
  | nil => intro a b; simp
  | cons x blocks ih =>
    intro a b
    rw [List.foldl_cons, ih]
    simp [Nat.add_assoc]

lemma memStats_eq (blocks : List ℕ) :
    memStats blocks =
      ((blocks.map (fun b => 6 + 6 * (b / 3) + 1 + 2 + 2 + 22 + 6)).sum, blocks.sum) := by
  unfold memStats
  rw [memStats_go (fun b => 6 + 6 * (b / 3) + 1 + 2 + 2 + 22 + 6) blocks 0 0]
  simp

/-- C3: the memory model.  The per-gene accumulation loop realises the
closed form exactly: total states is the sum over blocks of
6 + 6*(b/3) + 1 + 2 + 2 + 22 + 6, total reference length is the sum of the
block sizes, the byte estimate is the stated five-term polynomial plus the
100000-byte constant, gigabytes is the ceiling of the byte count over 10^9
plus the fixed 0.25 margin, and at blocks 300, 150 with query length 1000
the hand-computed values 4363108 bytes and 1.25 GB result. -/
theorem memory_model_spec (blocks : List ℕ) (q : ℕ) :
    memoryBytes blocks q =
        (blocks.map (fun b => 6 + 6 * (b / 3) + 1 + 2 + 2 + 22 + 6)).sum * 4 * 8 +
          (blocks.map (fun b => 6 + 6 * (b / 3) + 1 + 2 + 2 + 22 + 6)).sum * q * 4 +
          (blocks.map (fun b => 6 + 6 * (b / 3) + 1 + 2 + 2 + 22 + 6)).sum * 304 +
          (2 * q + blocks.sum) * 8 + (q + blocks.sum) * 2 + 100000 ∧
      cesar_gig blocks q =
        (⌈(memoryBytes blocks q : ℚ) / 1000000000⌉ : ℚ) + 1 / 4 ∧
      memoryBytes [300, 150] 1000 = 4363108 ∧
      cesar_gig [300, 150] 1000 = 5 / 4 := by
  refine ⟨?_, rfl, by decide, ?_⟩
  · rw [memoryBytes, memStats_eq]
    ring
  · have h : (⌈(1090777 : ℚ) / 250000000⌉ : ℤ) = 1 := by
      rw [Int.ceil_eq_iff]
      norm_num
    norm_num [cesar_gig, memoryBytes, memStats, h]

/-- C6: for a converter line with non-degenerate target interval, the
candidate is discarded with reason "too long query locus" exactly when its
category tag is a long-locus category AND (the length difference over the
target length exceeds 50 OR the absolute difference exceeds 500000); any
line not discarded records the projected query length for (gene, chain). -/
theorem conv_line_filter_spec (genes : List String) (chainId : String) (cgf : PyDict)
    (l : ConvLine) (gene : String)
    (hg : genes[l.num]? = some gene)
    (ht : l.tEnd - l.tStart ≠ 0) :
    (process_conv_line genes chainId cgf l =
        Except.ok (LineOutcome.skip (gene, chainId, "too long query locus")) ↔
      longLociField (dictGet cgf (chainId, gene)) = true ∧
        ((((l.tEnd - l.tStart - (l.qEnd - l.qStart)).natAbs : ℚ) /
            ((l.tEnd - l.tStart : ℤ) : ℚ) > 50) ∨
          (l.tEnd - l.tStart - (l.qEnd - l.qStart)).natAbs > 500000)) ∧
      (process_conv_line genes chainId cgf l ≠
          Except.ok (LineOutcome.skip (gene, chainId, "too long query locus")) →
        process_conv_line genes chainId cgf l =
          Except.ok (LineOutcome.record gene chainId (l.qEnd - l.qStart))) := by
  have hunf : process_conv_line genes chainId cgf l =
      if ((((l.tEnd - l.tStart - (l.qEnd - l.qStart)).natAbs : ℚ) /
            ((l.tEnd - l.tStart : ℤ) : ℚ) > 50) ∨
          (l.tEnd - l.tStart - (l.qEnd - l.qStart)).natAbs > 500000) ∧
          longLociField (dictGet cgf (chainId, gene)) = true then
        Except.ok (LineOutcome.skip (gene, chainId, "too long query locus"))
      else Except.ok (LineOutcome.record gene chainId (l.qEnd - l.qStart)) := by
    simp only [process_conv_line, if_neg ht, hg]
  rw [hunf]
  by_cases hcond : ((((l.tEnd - l.tStart - (l.qEnd - l.qStart)).natAbs : ℚ) /
        ((l.tEnd - l.tStart : ℤ) : ℚ) > 50) ∨
      (l.tEnd - l.tStart - (l.qEnd - l.qStart)).natAbs > 500000) ∧
      longLociField (dictGet cgf (chainId, gene)) = true
  · rw [if_pos hcond]
    exact ⟨⟨fun _ => ⟨hcond.2, hcond.1⟩, fun _ => rfl⟩, fun h => absurd rfl h⟩
  · rw [if_neg hcond]
    constructor
    · constructor
      · intro h
        exact absurd h (by simp)
      · intro h
        exact absurd ⟨h.2, h.1⟩ hcond
    · intro _
      rfl

/-- Witness for the C6 theorem: a TRANS-tagged pair whose projected length
diverges by a factor far above the relative threshold is skipped. -/
theorem conv_line_filter_spec_w :
    process_conv_line ["g"] "c" [(("c", "g"), "TRANS")] ⟨0, 0, 700000, 0, 100⟩ =
      Except.ok (LineOutcome.skip ("g", "c", "too long query locus")) := by
  have h := conv_line_filter_spec ["g"] "c" [(("c", "g"), "TRANS")]
    ⟨0, 0, 700000, 0, 100⟩ "g" rfl (by decide)
  exact h.1.mpr ⟨by decide, Or.inl (by norm_num)⟩

/-- C10: the anomaly check divides by the target interval length with no
guard: a converter line whose target end equals its target start makes the
stage raise ZeroDivisionError and abort rather than log a skip entry, and
on every line with non-zero target length and in-range interval index the
stage is total, returning a skip or a record. -/
theorem conv_line_div_zero_spec (genes : List String) (chainId : String) (cgf : PyDict)
    (l : ConvLine) :
    (l.tEnd = l.tStart →
      process_conv_line genes chainId cgf l =
        Except.error "ZeroDivisionError: division by zero") ∧
      (l.tEnd - l.tStart ≠ 0 → l.num < genes.length →
        ∃ out, process_conv_line genes chainId cgf l = Except.ok out) := by
  constructor
  · intro h
    have hz : l.tEnd - l.tStart = 0 := by rw [h]; exact sub_self l.tStart
    simp [process_conv_line, hz]
  · intro ht hn
    have hg : genes[l.num]? = some genes[l.num] := List.getElem?_eq_getElem hn
    simp only [process_conv_line, if_neg ht, hg]
    by_cases hcond : ((((l.tEnd - l.tStart - (l.qEnd - l.qStart)).natAbs : ℚ) /
          ((l.tEnd - l.tStart : ℤ) : ℚ) > 50) ∨
        (l.tEnd - l.tStart - (l.qEnd - l.qStart)).natAbs > 500000) ∧
        longLociField (dictGet cgf (chainId, genes[l.num])) = true
    · rw [if_pos hcond]
      exact ⟨_, rfl⟩
    · rw [if_neg hcond]
      exact ⟨_, rfl⟩

/-- Witness for the C10 theorem: a degenerate target interval (3, 3) raises
the division error. -/
theorem conv_line_div_zero_spec_w :
    process_conv_line ["g"] "c" [] ⟨0, 0, 5, 3, 3⟩ =
      Except.error "ZeroDivisionError: division by zero" :=
  (conv_line_div_zero_spec ["g"] "c" [] ⟨0, 0, 5, 3, 3⟩).1 rfl

/-- C9: chain-header query coordinates are read from token positions 7 to
11; a record with query strand "-" has its raw start and end flipped
against the query size, (start, end) becoming (size - end, size - start),
while a record with strand "+" keeps them unchanged; at size 1000 and raw
(100, 400) the flipped region is (600, 900). -/
theorem strand_flip_spec (geneStrand chrom szS stS enS : String) (pre : List String)
    (hlen : pre.length = 7) (s a b : ℤ)
    (hs : parseInt szS = some s) (ha : parseInt stS = some a) (hb : parseInt enS = some b) :
    get_corr_q_region geneStrand (pre ++ [chrom, szS, "-", stS, enS]) =
        some (chrom, (if "-" = geneStrand then "+" else "-"), s - b, s - a) ∧
      get_corr_q_region geneStrand (pre ++ [chrom, szS, "+", stS, enS]) =
        some (chrom, (if "+" = geneStrand then "+" else "-"), a, b) ∧
      get_corr_q_region "+"
          ["c0", "34", "tChr", "500", "+", "0", "400", "chrQ", "1000", "-", "100", "400"] =
        some ("chrQ", "-", 600, 900) := by
  have h7 : ∀ t2 : String, (pre ++ [chrom, szS, t2, stS, enS])[7]? = some chrom := by
    intro t2
    rw [List.getElem?_append_right (le_of_eq hlen)]
    simp [hlen]
  have h8 : ∀ t2 : String, (pre ++ [chrom, szS, t2, stS, enS])[8]? = some szS := by
    intro t2
    rw [List.getElem?_append_right (by rw [hlen]; norm_num)]
    simp [hlen]
  have h9 : ∀ t2 : String, (pre ++ [chrom, szS, t2, stS, enS])[9]? = some t2 := by
    intro t2
    rw [List.getElem?_append_right (by rw [hlen]; norm_num)]
    simp [hlen]
  have h10 : ∀ t2 : String, (pre ++ [chrom, szS, t2, stS, enS])[10]? = some stS := by
    intro t2
    rw [List.getElem?_append_right (by rw [hlen]; norm_num)]
    simp [hlen]
  have h11 : ∀ t2 : String, (pre ++ [chrom, szS, t2, stS, enS])[11]? = some enS := by
    intro t2
    rw [List.getElem?_append_right (by rw [hlen]; norm_num)]
    simp [hlen]
  refine ⟨?_, ?_, by decide⟩
  · simp [get_corr_q_region, h7 "-", h8 "-", h9 "-", h10 "-", h11 "-", hs, ha, hb]
  · simp [get_corr_q_region, h7 "+", h8 "+", h9 "+", h10 "+", h11 "+", hs, ha, hb]

lemma snd_unique_of_nodup (jobs : List (String × ℚ)) (hnd : (jobs.map Prod.fst).Nodup)
    (name : String) (m1 m2 : ℚ) (h1 : (name, m1) ∈ jobs) (h2 : (name, m2) ∈ jobs) :
    m1 = m2 := by
  induction jobs with
  | nil => exact absurd h1 (List.not_mem_nil _)
  | cons j rest ih =>
    have hnd2 : (rest.map Prod.fst).Nodup := (List.nodup_cons.mp hnd).2
    have hj1 : j.1 ∉ rest.map Prod.fst := (List.nodup_cons.mp hnd).1
    rcases List.mem_cons.mp h1 with he1 | hr1
    · rcases List.mem_cons.mp h2 with he2 | hr2
      · rw [← he1] at he2
        exact (Prod.ext_iff.mp he2).2.symm
      · exfalso
        apply hj1
        rw [← he1]
        exact List.mem_map.mpr ⟨(name, m2), hr2, rfl⟩
    · rcases List.mem_cons.mp h2 with he2 | hr2
      · exfalso
        apply hj1
        rw [← he2]
        exact List.mem_map.mpr ⟨(name, m1), hr1, rfl⟩
      · exact ih hnd2 hr1 hr2

lemma name_mem_bucket (jobs : List (String × ℚ)) (name : String) (mem : ℚ)
    (hmem : (name, mem) ∈ jobs) (hnd : (jobs.map Prod.fst).Nodup)
    (prev mq : ℚ) :
    name ∈ (jobs.filter (fun j => prev < j.2 ∧ j.2 ≤ mq)).map Prod.fst ↔
      (prev < mem ∧ mem ≤ mq) := by
  constructor
  · intro h
    obtain ⟨j, hj, hj1⟩ := List.mem_map.mp h
    obtain ⟨hjin, hjcond⟩ := List.mem_filter.mp hj
    have hcond : prev < j.2 ∧ j.2 ≤ mq := by simpa using hjcond
    have hjn : (name, j.2) ∈ jobs := by
      have hjeta : (j.1, j.2) ∈ jobs := by simpa using hjin
      rw [hj1] at hjeta
      exact hjeta
    have hjm : j.2 = mem := snd_unique_of_nodup jobs hnd name j.2 mem hjn hmem
    exact hjm ▸ hcond
  · intro h
    exact List.mem_map.mpr
      ⟨(name, mem), List.mem_filter.mpr ⟨hmem, by simpa using h⟩, rfl⟩

lemma fillGo_countP (jobs : List (String × ℚ)) (name : String) (mem : ℚ)
    (hmem : (name, mem) ∈ jobs) (hnd : (jobs.map Prod.fst).Nodup) :
    ∀ (ms : List ℤ) (prev : ℚ), ms.Sorted (· ≤ ·) → (∀ m ∈ ms, prev ≤ (m : ℚ)) →
      (fillGo jobs prev ms).countP (fun bkt => decide (name ∈ bkt.2)) =
        if prev < mem ∧ ∃ m ∈ ms, mem ≤ (m : ℚ) then 1 else 0 := by
  intro ms
  induction ms with
  | nil => intro prev _ _; simp [fillGo]
  | cons m rest ih =>
    intro prev hsort hlb
    have hsort2 := (List.sorted_cons.mp hsort).2
    have hrest_lb : ∀ m2 ∈ rest, (m : ℚ) ≤ (m2 : ℚ) := fun m2 hm2 =>
      Int.cast_le.mpr ((List.sorted_cons.mp hsort).1 m2 hm2)
    have hm_lb : prev ≤ (m : ℚ) := hlb m (List.mem_cons_self m rest)
    rw [fillGo, List.countP_cons, ih m hsort2 hrest_lb]
    have hhead : (decide (name ∈
        ((jobs.filter (fun j => prev < j.2 ∧ j.2 ≤ (m : ℚ))).map Prod.fst)) = true) ↔
        (prev < mem ∧ mem ≤ (m : ℚ)) := by
      rw [decide_eq_true_eq]
      exact name_mem_bucket jobs name mem hmem hnd prev (m : ℚ)
    by_cases h1 : prev < mem
    · by_cases h2 : mem ≤ (m : ℚ)
      · rw [if_pos (hhead.mpr ⟨h1, h2⟩),
          if_neg (fun hc : (m : ℚ) < mem ∧ _ => absurd hc.1 (not_lt.mpr h2)),
          if_pos ⟨h1, ⟨m, List.mem_cons_self m rest, h2⟩⟩]
      · have hmlt : (m : ℚ) < mem := lt_of_not_ge h2
        rw [if_neg (fun hc => h2 (hhead.mp hc).2)]
        have hiff : ((m : ℚ) < mem ∧ ∃ m2 ∈ rest, mem ≤ (m2 : ℚ)) ↔
            (prev < mem ∧ ∃ m2 ∈ m :: rest, mem ≤ (m2 : ℚ)) := by
          constructor
          · rintro ⟨_, m2, hm2r, hm2⟩
            exact ⟨h1, m2, List.mem_cons_of_mem m hm2r, hm2⟩
          · rintro ⟨_, m2, hm2r, hm2⟩
            refine ⟨hmlt, ?_⟩
            rcases List.mem_cons.mp hm2r with he | hr
            · exact absurd (he ▸ hm2) h2
            · exact ⟨m2, hr, hm2⟩
        rw [if_congr hiff rfl rfl]
        simp
    · have hmem_le : mem ≤ prev := not_lt.mp h1
      rw [if_neg (fun hc => h1 (hhead.mp hc).1),
        if_neg (fun hc : (m : ℚ) < mem ∧ _ =>
          absurd hc.1 (not_lt.mpr (le_trans hmem_le hm_lb))),
        if_neg (fun hc : prev < mem ∧ _ => h1 hc.1)]

lemma fillGo_mem_min (jobs : List (String × ℚ)) (name : String) (mem : ℚ)
    (hmem : (name, mem) ∈ jobs) (hnd : (jobs.map Prod.fst).Nodup) :
    ∀ (ms : List ℤ) (prev : ℚ), ms.Sorted (· ≤ ·) →
      ∀ bkt ∈ fillGo jobs prev ms, name ∈ bkt.2 →
        mem ≤ (bkt.1 : ℚ) ∧ (∀ k ∈ ms, mem ≤ (k : ℚ) → bkt.1 ≤ k) := by
  intro ms
  induction ms with
  | nil => intro prev _ bkt hbkt; simp [fillGo] at hbkt
  | cons m rest ih =>
    intro prev hsort bkt hbkt hname
    have hsort2 := (List.sorted_cons.mp hsort).2
    rw [fillGo] at hbkt
    rcases List.mem_cons.mp hbkt with he | hr
    · subst he
      have hc : prev < mem ∧ mem ≤ (m : ℚ) :=
        (name_mem_bucket jobs name mem hmem hnd prev (m : ℚ)).mp hname
      refine ⟨hc.2, ?_⟩
      intro k hk _
      rcases List.mem_cons.mp hk with he2 | hr2
      · exact le_of_eq he2.symm
      · exact (List.sorted_cons.mp hsort).1 k hr2
    · have hih := ih m hsort2 bkt hr hname
      refine ⟨hih.1, ?_⟩
      intro k hk hkmem
      rcases List.mem_cons.mp hk with he2 | hr2
      · exfalso
        have hmlt : (m : ℚ) < mem := by
          by_contra hml
          have hzero := fillGo_countP jobs name mem hmem hnd rest m hsort2
            (fun m2 hm2 => Int.cast_le.mpr ((List.sorted_cons.mp hsort).1 m2 hm2))
          rw [if_neg (fun hcc : (m : ℚ) < mem ∧ _ => hml hcc.1)] at hzero
          exact absurd (by simpa using hname) ((List.countP_eq_zero.mp hzero) bkt hr)
        rw [he2] at hkmem
        exact absurd hkmem (not_le.mpr hmlt)
      · exact hih.2 k hr2 hkmem

lemma countP_filter_nonempty (out : List (ℤ × List String)) (name : String) :
    ((out.filter (fun b => b.2 ≠ [])).countP (fun b => decide (name ∈ b.2))) =
      out.countP (fun b => decide (name ∈ b.2)) := by
  induction out with
  | nil => rfl
  | cons b out ih =>
    by_cases hb : b.2 = []
    · rw [List.filter_cons, List.countP_cons]
      have hdrop : (decide (b.2 ≠ []) : Bool) = false := by simp [hb]
      rw [hdrop]
      have hnm : (decide (name ∈ b.2) : Bool) = false := by simp [hb]
      rw [hnm]
      simpa using ih
    · rw [List.filter_cons, List.countP_cons]
      have hkeep : (decide (b.2 ≠ []) : Bool) = true := by simp [hb]
      rw [hkeep]
      simp only [if_true, List.countP_cons, ih]

/-- C7: bucket classification.  For positive bucket ceilings and a job
table with distinct job names: a job whose estimate is positive and at
most some ceiling occurs in exactly one emitted bucket; a job above every
ceiling occurs in none; every emitted bucket is non-empty; any bucket
containing the job has the first ceiling at or above its estimate
(half-open ranges stacked ascending); and when only the unbounded
sentinel key 0 is configured, every job name goes to the one bucket. -/
theorem fill_buckets_spec (bucketKeys : List ℤ) (allJobs : List (String × ℚ))
    (name : String) (mem : ℚ)
    (hmem : (name, mem) ∈ allJobs)
    (hnd : (allJobs.map Prod.fst).Nodup)
    (hpos : ∀ k ∈ bucketKeys, 0 < k) :
    ((0 < mem ∧ ∃ k ∈ bucketKeys, mem ≤ (k : ℚ)) →
        (fill_buckets bucketKeys allJobs).countP (fun b => decide (name ∈ b.2)) = 1) ∧
      ((∀ k ∈ bucketKeys, (k : ℚ) < mem) →
        (fill_buckets bucketKeys allJobs).countP (fun b => decide (name ∈ b.2)) = 0) ∧
      (∀ b ∈ fill_buckets bucketKeys allJobs, b.2 ≠ []) ∧
      (∀ b ∈ fill_buckets bucketKeys allJobs, name ∈ b.2 →
        mem ≤ (b.1 : ℚ) ∧ ∀ k ∈ bucketKeys, mem ≤ (k : ℚ) → b.1 ≤ k) ∧
      fill_buckets [0] allJobs = [(0, allJobs.map Prod.fst)] := by
  have h0 : (0 : ℤ) ∉ bucketKeys := fun h => absurd (hpos 0 h) (lt_irrefl 0)
  have hunf : fill_buckets bucketKeys allJobs =
      (fillGo allJobs 0 (List.insertionSort (fun a b => a ≤ b) bucketKeys)).filter
        (fun b => b.2 ≠ []) := by
    rw [fill_buckets, if_neg h0]
  have hsorted : (List.insertionSort (fun a b => a ≤ b) bucketKeys).Sorted
      (fun a b => a ≤ b) := List.sorted_insertionSort _ _
  have hperm := List.perm_insertionSort (fun a b => a ≤ b) bucketKeys
  have hlb : ∀ m ∈ List.insertionSort (fun a b => a ≤ b) bucketKeys,
      (0 : ℚ) ≤ (m : ℚ) := by
    intro m hm
    have hm0 : (0 : ℤ) < m := hpos m (hperm.mem_iff.mp hm)
    exact le_of_lt (by exact_mod_cast hm0)
  refine ⟨?_, ?_, ?_, ?_, ?_⟩
  · rintro ⟨hm0, k, hk, hmk⟩
    rw [hunf, countP_filter_nonempty,
      fillGo_countP allJobs name mem hmem hnd _ 0 hsorted hlb,
      if_pos ⟨hm0, k, hperm.mem_iff.mpr hk, hmk⟩]
  · intro hall
    rw [hunf, countP_filter_nonempty,
      fillGo_countP allJobs name mem hmem hnd _ 0 hsorted hlb]
    rw [if_neg ?hc]
    case hc =>
      rintro ⟨_, k, hk, hmk⟩
      exact absurd hmk (not_le.mpr (hall k (hperm.mem_iff.mp hk)))
  · intro b hb
    rw [hunf] at hb
    have hb2 := (List.mem_filter.mp hb).2
    simpa using hb2
  · intro b hb hnameb
    rw [hunf] at hb
    have hbg := List.mem_of_mem_filter hb
    have h := fillGo_mem_min allJobs name mem hmem hnd _ 0 hsorted b hbg hnameb
    exact ⟨h.1, fun k hk hmk => h.2 k (hperm.mem_iff.mpr hk) hmk⟩
  · rw [fill_buckets, if_pos (List.mem_singleton_self 0)]
    simp

/-- Witness for the C7 theorem: with ceilings 10 and 30 a single job of
5.25 GB lands in exactly one bucket. -/
theorem fill_buckets_spec_w :
    (fill_buckets [10, 30] [("j1", 21 / 4)]).countP (fun b => decide ("j1" ∈ b.2)) = 1 := by
  have h := fill_buckets_spec [10, 30] [("j1", 21 / 4)] "j1" (21 / 4)
    (by simp) (by simp) (by decide)
  exact h.1 ⟨by norm_num, 10, by simp, by norm_num⟩

/-- C8: proportional allocation.  For a non-empty set of filled buckets
with positive ceilings, each bucket of weight ceiling times task count is
allotted ceil(F * weight / sumOfWeights) job files; a single unbounded
sentinel bucket receives all F files; and the spec example with buckets of
30 tasks at ceiling 10 and 10 tasks at ceiling 30 under F = 100 gives 50
files each. -/
theorem bucket_jobs_num_spec (F : ℕ) (filled : List (ℤ × List String))
    (names : List String)
    (hpos : ∀ b ∈ filled, 0 < b.1) (_hne : filled ≠ []) :
    (∀ b ∈ filled,
        (b.1, ⌈((F : ℚ) * ((b.1 : ℚ) * b.2.length)) /
            ((filled.map (fun c => (c.1 : ℚ) * c.2.length)).sum)⌉) ∈
          bucket_jobs_num F filled) ∧
      bucket_jobs_num F [(0, names)] = [(0, (F : ℤ))] ∧
      bucket_jobs_num 100 [(10, List.replicate 30 "x"), (30, List.replicate 10 "y")] =
        [(10, 50), (30, 50)] := by
  refine ⟨?_, ?_, ?_⟩
  · intro b hb
    have h0 : (0 : ℤ) ∉ filled.map Prod.fst := by
      intro h
      obtain ⟨c, hc, hc0⟩ := List.mem_map.mp h
      exact absurd (hc0 ▸ hpos c hc) (lt_irrefl 0)
    unfold bucket_jobs_num buckets_prop
    rw [if_neg h0, List.map_map]
    apply List.mem_map.mpr
    refine ⟨b, hb, ?_⟩
    simp only [Function.comp]
    congr 2
    ring
  · unfold bucket_jobs_num buckets_prop
    rw [if_pos (by simp)]
    simp
  · have h : (⌈(100 : ℚ) * (300 / 600)⌉ : ℤ) = 50 := by
      norm_num
    norm_num [bucket_jobs_num, buckets_prop, List.replicate]

/-- Witness for the C8 theorem: the spec example evaluated through the
theorem, hypotheses discharged at the concrete buckets. -/
theorem bucket_jobs_num_spec_w :
    bucket_jobs_num 100 [(10, List.replicate 30 "x"), (30, List.replicate 10 "y")] =
      [(10, 50), (30, 50)] :=
  (bucket_jobs_num_spec 100 [(10, List.replicate 30 "x"), (30, List.replicate 10 "y")]
    ["n"] (by decide) (by decide)).2.2

/-- Witness for the C9 theorem: a twelve-token header with query strand -,
size 1000 and raw region (100, 400) projects to (600, 900). -/
theorem strand_flip_spec_w :
    get_corr_q_region "+"
        (["t0", "t1", "t2", "t3", "t4", "t5", "t6"] ++ ["chrQ", "1000", "-", "100", "400"]) =
      some ("chrQ", "-", 600, 900) := by
  have h := (strand_flip_spec "+" "chrQ" "1000" "100" "400"
    ["t0", "t1", "t2", "t3", "t4", "t5", "t6"] rfl 1000 100 400
    (by decide) (by decide) (by decide)).1
  simpa using h
